import Mathlib

/-!
Shallow embedding of the beam-search core of the `text-summarization`
repository (`src/beam_search.py`, plus `make_html_safe` from
`src/decode_eval.py`).

Modelling conventions:
* Python floats are modelled as `ℚ`; token ids as `ℕ`; the opaque LSTM
  decoder state as a type parameter `σ`.
* numpy operations that can produce NaN (the `0/0` arising from the
  in-place weight normalization `sentence_start_weights /= .sum()` when
  the sum is zero, or the mean of an empty vector) are modelled by an
  `Option ℚ` codomain, `none` standing for the non-finite outcome.
* `cov_loss` indexes `attn_dists[0]`, which raises `IndexError` on an
  empty list; that failure is likewise modelled as `none`.
* List indexing `xs[i]` is modelled with `List.getD`; all theorems that
  depend on an index being in range carry the corresponding hypothesis,
  mirroring the situations in which the Python code does not raise.
* `data.N_FREE_TOKENS`, the vocabulary ids and the `FLAGS` tunables come
  from collaborators outside `src/`; they are passed as parameters.
-/

namespace BeamSearch

/-- One beam-search hypothesis, as in `Hypothesis.__init__`
(`beam_search.py:28-44`): the constructor merely stores the six fields,
performing no validation whatsoever. -/
structure Hypothesis (σ : Type) where
  tokens : List ℕ
  log_probs : List ℚ
  state : σ
  attn_dists : List (List ℚ)
  p_gens : List ℚ
  coverage : List ℚ

instance {σ : Type} [Inhabited σ] : Inhabited (Hypothesis σ) :=
  ⟨⟨[], [], default, [], [], []⟩⟩

/-- `Hypothesis.extend` (`beam_search.py:46-64`): builds a brand-new
`Hypothesis`; the Python code uses list concatenation `+` (which
allocates fresh lists), so the parent value is never mutated and the
method is a pure function. -/
def Hypothesis.extend {σ : Type} (h : Hypothesis σ) (token : ℕ) (log_prob : ℚ)
    (state : σ) (attn_dist : List ℚ) (p_gen : ℚ) (coverage : List ℚ) :
    Hypothesis σ where
  tokens := h.tokens ++ [token]
  log_probs := h.log_probs ++ [log_prob]
  state := state
  attn_dists := h.attn_dists ++ [attn_dist]
  p_gens := h.p_gens ++ [p_gen]
  coverage := coverage

/-- `Hypothesis.latest_token` (`beam_search.py:66-68`), `self.tokens[-1]`.
Python raises on an empty list; theorems that rely on this value assume
`tokens ≠ []`. -/
def Hypothesis.latestToken {σ : Type} (h : Hypothesis σ) : ℕ :=
  h.tokens.getLastD 0

/-- `Hypothesis._has_unknown_token` (`beam_search.py:70-76`): true when a
token of the slice `tokens[1:-1]` is below `data.N_FREE_TOKENS`, or the
latest token is below that threshold and differs from the stop token. -/
def hasUnknownToken {σ : Type} (nFree stopTok : ℕ) (h : Hypothesis σ) : Bool :=
  ((h.tokens.drop 1).dropLast.any (fun t => decide (t < nFree))) ||
    (decide (h.latestToken < nFree) && decide (h.latestToken ≠ stopTok))

/-- `Hypothesis.avg_log_prob` (`beam_search.py:78-81`): the sentinel
`-10 ** 6` for unknown-token hypotheses, otherwise
`sum(log_probs) / len(tokens)` (denominator is the token count; Python
raises `ZeroDivisionError` on empty `tokens`, so theorems assume
nonemptiness). -/
def avgLogProb {σ : Type} (nFree stopTok : ℕ) (h : Hypothesis σ) : ℚ :=
  if hasUnknownToken nFree stopTok h then -10 ^ 6
  else h.log_probs.sum / (h.tokens.length : ℚ)

/-- The body of the inner window loop of `_smart_avg_log_prob`
(`beam_search.py:110-112`), run over a list of positions `j`:
`if tokens[j] not in stopword_ids: weights[j] = 1. / (j - i + 5)`. -/
def wWrite (stopword tokens : List ℕ) (i : ℕ) (w : List ℚ) (j : ℕ) : List ℚ :=
  if tokens.getD j 0 ∈ stopword then w
  else w.set j (1 / ((j - i + 5 : ℕ) : ℚ))

/-- The inner window loop of `_smart_avg_log_prob` over a list of
positions `j`. -/
def windowFold (stopword tokens : List ℕ) (i : ℕ) (idx : List ℕ)
    (w : List ℚ) : List ℚ :=
  idx.foldl (wWrite stopword tokens i) w

/-- The inner window-write of `_smart_avg_log_prob` (`beam_search.py:109-112`):
`for j in range(i + 1, min(len(tokens), i + 5)): …`, guarded by
`tokens[i] in start_sent_ids`.  `List.range' (i+1) k` enumerates exactly
Python's `range(i+1, i+1+k)`. -/
def wStep (startSent stopword tokens : List ℕ) (w : List ℚ) (i : ℕ) : List ℚ :=
  if tokens.getD i 0 ∈ startSent then
    windowFold stopword tokens i
      (List.range' (i + 1) (min tokens.length (i + 5) - (i + 1))) w
  else w

/-- The pronoun-penalty write of `_smart_avg_log_prob`
(`beam_search.py:114-115`): `log_probs[i] -= .8` when `tokens[i]` is a
pronoun id. -/
def lpStep (pronoun tokens : List ℕ) (lp : List ℚ) (i : ℕ) : List ℚ :=
  if tokens.getD i 0 ∈ pronoun then lp.set i (lp.getD i 0 - 4 / 5) else lp

/-- The single `for i, token in enumerate(self.tokens)` loop of
`_smart_avg_log_prob` (`beam_search.py:108-115`), acting on the pair
(sentence_start_weights, working log_probs); the two branches touch
disjoint arrays.  Weights start as `np.zeros(len(tokens))`. -/
def smartPass (startSent stopword pronoun tokens : List ℕ) (logProbs : List ℚ) :
    List ℚ × List ℚ :=
  (List.range tokens.length).foldl
    (fun p i => (wStep startSent stopword tokens p.1 i, lpStep pronoun tokens p.2 i))
    (List.replicate tokens.length 0, logProbs)

/-- `Hypothesis._smart_avg_log_prob` (`beam_search.py:104-120`).  The
in-place normalization `sentence_start_weights /= .sum()` is numpy
`0/0 = NaN` in every entry whenever the sum is zero (all weights are then
zero), and `log_probs.mean()` of an empty vector is also NaN; both
non-finite outcomes are modelled as `none`.  Otherwise the result is
`.75 * log_probs.mean() + .25 * dot(normalized weights, log_probs)`.
(The numpy `dot` assumes the constructor's documented invariant
`len(log_probs) = len(tokens)`; theorems carry it explicitly.) -/
def smartAvgLogProb {σ : Type} (startSent stopword pronoun : List ℕ)
    (h : Hypothesis σ) : Option ℚ :=
  let p := smartPass startSent stopword pronoun h.tokens h.log_probs
  let w := p.1
  let lp := p.2
  let s := w.sum
  if s = 0 ∨ lp.length = 0 then none
  else
    some (3 / 4 * (lp.sum / (lp.length : ℚ)) +
      1 / 4 * (List.zipWith (fun a b => a * b) (w.map (fun x => x / s)) lp).sum)

/-- The per-step loop of `Hypothesis.cov_loss` (`beam_search.py:131-134`):
for each attention distribution `a`, record `min(a, coverage).sum()` and
add `a` into the running coverage (element-wise, equal-length vectors). -/
def covLossList : List ℚ → List (List ℚ) → List ℚ
  | _, [] => []
  | cov, a :: rest =>
      (List.zipWith min a cov).sum :: covLossList (List.zipWith (· + ·) cov a) rest

/-- `Hypothesis.cov_loss` (`beam_search.py:126-136`): running coverage
starts at `np.zeros_like(attn_dists[0])`; the result is the mean of the
per-step losses.  On an empty `attn_dists` the Python code raises
`IndexError` at `attn_dists[0]` (modelled `none`). -/
def covLoss {σ : Type} (h : Hypothesis σ) : Option ℚ :=
  match h.attn_dists with
  | [] => none
  | a₀ :: _ =>
      let losses := covLossList (List.replicate a₀.length 0) h.attn_dists
      some (losses.sum / (losses.length : ℚ))

/-- The scan of `Hypothesis.repeated_n_gram_loss` (`beam_search.py:140-148`)
over a list of window start indices, with the `seen_n_grams` set
modelled as a list (membership is all that is used): return `10. ** 6`
on the first repeated 3-gram, else `0.`. -/
def scanNGrams (tokens : List ℕ) : List ℕ → List (List ℕ) → ℚ
  | [], _ => 0
  | i :: is, seen =>
      let g := (tokens.drop i).take 3
      if g ∈ seen then 10 ^ 6 else scanNGrams tokens is (g :: seen)

/-- `Hypothesis.repeated_n_gram_loss` (`beam_search.py:138-148`) with
`disallowed_n = 3`.  Python's `range(len(tokens) - 3 + 1)` is empty for
`len(tokens) < 3`; in `ℕ` that index list is `List.range (len + 1 - 3)`. -/
def repeatedNGramLoss (tokens : List ℕ) : ℚ :=
  scanNGrams tokens (List.range (tokens.length + 1 - 3)) []

/-- `Hypothesis.score` (`beam_search.py:97-102`): the `-10 ** 6` sentinel
for unknown-token hypotheses, otherwise
`smart_avg_log_prob - repeated_n_gram_loss - cov_loss` (NaN from the
first term, or the `IndexError` of `cov_loss`, propagates: `none`). -/
def score {σ : Type} (nFree stopTok : ℕ) (startSent stopword pronoun : List ℕ)
    (h : Hypothesis σ) : Option ℚ :=
  if hasUnknownToken nFree stopTok h then some (-10 ^ 6)
  else
    match smartAvgLogProb startSent stopword pronoun h, covLoss h with
    | some s, some c => some (s - repeatedNGramLoss h.tokens - c)
    | _, _ => none

/-- The configuration the driver reads from `FLAGS`, the vocabulary and
the batch: beam size, step limits, the stop-token id, the
`data.N_FREE_TOKENS` threshold, the `smart_decode` flag, the three
linguistic id sets built at `beam_search.py:179-185`, and the
`article_id_to_word_ids[0].get(t, t)` OOV remap of `beam_search.py:191`. -/
structure Config where
  beamSize : ℕ
  maxDecSteps : ℕ
  minDecSteps : ℕ
  stopTokenId : ℕ
  nFreeTokens : ℕ
  smartDecode : Bool
  startSentIds : List ℕ
  stopwordIds : List ℕ
  pronounIds : List ℕ
  remap : ℕ → ℕ

/-- The scoring key selected by `sort_hyps` (`beam_search.py:249-252`)
according to `FLAGS.smart_decode`. -/
def keyOf {σ : Type} (cfg : Config) (h : Hypothesis σ) : Option ℚ :=
  if cfg.smartDecode then
    score cfg.nFreeTokens cfg.stopTokenId cfg.startSentIds cfg.stopwordIds
      cfg.pronounIds h
  else some (avgLogProb cfg.nFreeTokens cfg.stopTokenId h)

/-- Python float comparison `x >= y` on possibly-NaN keys: any comparison
involving NaN is `False`. -/
def pyGe (a b : Option ℚ) : Bool :=
  match a, b with
  | some x, some y => decide (y ≤ x)
  | _, _ => false

/-- Stable descending insertion: `x` is placed before the first element
whose key it does not lose to, so earlier input elements precede later
ones of equal key. -/
def insertByKey {α : Type} (key : α → Option ℚ) (x : α) : List α → List α
  | [] => [x]
  | y :: ys => if pyGe (key x) (key y) then x :: y :: ys else y :: insertByKey key x ys

/-- Behavioural model of Python's `sorted(hyps, key=score_func,
reverse=True)` (`beam_search.py:254`): the unique stable descending
order, realized as a stable insertion sort. -/
def sortByKey {α : Type} (key : α → Option ℚ) (l : List α) : List α :=
  l.foldr (insertByKey key) []

/-- `sort_hyps` (`beam_search.py:247-254`). -/
def sortHyps {σ : Type} (cfg : Config) (hyps : List (Hypothesis σ)) :
    List (Hypothesis σ) :=
  sortByKey (keyOf cfg) hyps

/-- The per-hypothesis outputs of one `model.decode_onestep` call
(`beam_search.py:196-203`): `topk_ids`/`topk_log_probs` are
`num_hyps × (2*beam_size)` matrices, the other four are one entry per
input hypothesis. -/
structure DecodeResult (σ : Type) where
  topk_ids : List (List ℕ)
  topk_log_probs : List (List ℚ)
  new_states : List σ
  attn_dists : List (List ℚ)
  p_gens : List ℚ
  new_coverage : List (List ℚ)

/-- The initial beam (`beam_search.py:169-175`): `beam_size` identical
hypotheses holding the start token, log-prob `0.0`, the encoder-provided
initial decoder state, empty histories and a zero coverage vector. -/
def initHyps {σ : Type} (cfg : Config) (startTok : ℕ) (decInState : σ)
    (attnLen : ℕ) : List (Hypothesis σ) :=
  List.replicate cfg.beamSize
    ⟨[startTok], [0], decInState, [], [], List.replicate attnLen 0⟩

/-- The filter/partition loop of `run_beam_search` (`beam_search.py:221-232`)
over the globally sorted candidates: a stop-token child goes to
`results` when `steps >= min_dec_steps` (else it is discarded); a child
whose latest token is `>= N_FREE_TOKENS` joins the next live beam; any
other child is dropped.  After each candidate the loop breaks once
`len(hyps) == beam_size` or `len(results) == 4 * beam_size`. -/
def filterLoop (cfg : Config) (steps : ℕ) {σ : Type} :
    List (Hypothesis σ) → List (Hypothesis σ) → List (Hypothesis σ) →
    List (Hypothesis σ) × List (Hypothesis σ)
  | [], hyps, results => (hyps, results)
  | h :: rest, hyps, results =>
      let pair :=
        if h.latestToken = cfg.stopTokenId then
          (hyps, if cfg.minDecSteps ≤ steps then results ++ [h] else results)
        else if cfg.nFreeTokens ≤ h.latestToken then (hyps ++ [h], results)
        else (hyps, results)
      if pair.1.length = cfg.beamSize ∨ pair.2.length = 4 * cfg.beamSize then pair
      else filterLoop cfg steps rest pair.1 pair.2

/-- The candidate-construction loop of one step (`beam_search.py:205-218`):
for the first `num_orig_hyps` hypotheses `i` and each of the
`2*beam_size` candidates `j`, extend hypothesis `i` with candidate
`(i, j)` and the `i`-th new state/attention/p_gen/coverage. -/
def childHyps {σ : Type} [Inhabited σ] (cfg : Config) (r : DecodeResult σ)
    (numOrig : ℕ) (hyps : List (Hypothesis σ)) : List (Hypothesis σ) :=
  (List.range numOrig).flatMap (fun i =>
    (List.range (2 * cfg.beamSize)).map (fun j =>
      (hyps.getD i default).extend
        ((r.topk_ids.getD i []).getD j 0)
        ((r.topk_log_probs.getD i []).getD j 0)
        (r.new_states.getD i default)
        (r.attn_dists.getD i [])
        (r.p_gens.getD i 0)
        (r.new_coverage.getD i [])))

/-- One iteration of the `while` loop of `run_beam_search`
(`beam_search.py:189-234`): remap latest tokens, call the decode-step
capability, extend the first `num_orig_hyps` hypotheses with each of
their `2*beam_size` candidates, sort every child, and run the
filter/partition loop with a fresh live set and the accumulated
`results`. -/
def beamStep {σ : Type} [Inhabited σ] (cfg : Config)
    (decode : List ℕ → List σ → List (List ℚ) → DecodeResult σ)
    (steps : ℕ) (hyps results : List (Hypothesis σ)) :
    List (Hypothesis σ) × List (Hypothesis σ) :=
  let latest := hyps.map (fun h => cfg.remap h.latestToken)
  let states := hyps.map (fun h => h.state)
  let prevCov := hyps.map (fun h => h.coverage)
  let r := decode latest states prevCov
  let numOrig := if steps = 0 then 1 else hyps.length
  filterLoop cfg steps (sortHyps cfg (childHyps cfg r numOrig hyps)) [] results

/-- The `while steps < max_dec_steps and len(results) < 4 * beam_size`
loop (`beam_search.py:187-234`), with `fuel = max_dec_steps - steps`
counting the remaining permitted steps. -/
def beamLoop {σ : Type} [Inhabited σ] (cfg : Config)
    (decode : List ℕ → List σ → List (List ℚ) → DecodeResult σ) :
    ℕ → ℕ → List (Hypothesis σ) → List (Hypothesis σ) →
    List (Hypothesis σ) × List (Hypothesis σ)
  | 0, _, hyps, results => (hyps, results)
  | fuel + 1, steps, hyps, results =>
      if results.length < 4 * cfg.beamSize then
        let p := beamStep cfg decode steps hyps results
        beamLoop cfg decode fuel (steps + 1) p.1 p.2
      else (hyps, results)

/-- The final results set of `run_beam_search` (`beam_search.py:238-239`):
the accumulated `results`, or the current live hypotheses when no
complete hypothesis was ever collected. -/
def finalResults {σ : Type} [Inhabited σ] (cfg : Config)
    (decode : List ℕ → List σ → List (List ℚ) → DecodeResult σ)
    (startTok : ℕ) (decInState : σ) (attnLen : ℕ) : List (Hypothesis σ) :=
  let p := beamLoop cfg decode cfg.maxDecSteps 0
    (initHyps cfg startTok decInState attnLen) []
  if p.2.length = 0 then p.1 else p.2

/-- `run_beam_search` (`beam_search.py:151-245`): sorts the final results
set and returns `hyps_sorted[0]` — a single `Hypothesis`, with no
accompanying score (its caller `BeamSearchDecoder.decode`,
`decode_eval.py:98-101`, nevertheless unpacks a `(best_hyp, best_score)`
pair from it and supplies four extra arguments). -/
def runBeamSearch {σ : Type} [Inhabited σ] (cfg : Config)
    (decode : List ℕ → List σ → List (List ℚ) → DecodeResult σ)
    (startTok : ℕ) (decInState : σ) (attnLen : ℕ) : Hypothesis σ :=
  (sortHyps cfg (finalResults cfg decode startTok decInState attnLen)).headD default

/-- `make_html_safe` (`decode_eval.py:219-225`): both `str.replace` calls
build new strings that are immediately discarded (`str.replace` never
mutates), and the original `s` is returned. -/
def make_html_safe (s : String) : String :=
  let r1 := s.replace ("<") ("&lt;")
  let r2 := s.replace (">") ("&gt;")
  s

/-! ### Specification-side definitions

These are stated from the spec's wording, to be compared with the
source-derived definitions above. -/

/-- The most recent sentence start writing into position `j` among the
first `m` loop iterations: the largest `i < min m j` with
`tokens[i] ∈ start_sent_ids` whose 4-token lookahead window
`i+1 .. i+4` contains `j` (the filtered ascending range makes `getLast?`
that maximum). -/
def lastSentStart (startSent tokens : List ℕ) (m j : ℕ) : Option ℕ :=
  ((List.range (min m j)).filter (fun i =>
    decide (j ≤ i + 4) && decide (tokens.getD i 0 ∈ startSent))).getLast?

/-- The weight of position `j` after the first `m` iterations of the
sentence-start loop (spec side): `0` for stopword positions and
positions no window reached; otherwise `1/(j − i + 5)` for the most
recent sentence start `i` whose window covers `j` — later windows
overwrite earlier ones. -/
def specWeightUpTo (startSent stopword tokens : List ℕ) (m j : ℕ) : ℚ :=
  if tokens.getD j 0 ∈ stopword then 0
  else
    match lastSentStart startSent tokens m j with
    | some i => 1 / ((j - i + 5 : ℕ) : ℚ)
    | none => 0

/-- The claim's description of the final weight vector, entry `j`. -/
def specWeight (startSent stopword tokens : List ℕ) (j : ℕ) : ℚ :=
  specWeightUpTo startSent stopword tokens tokens.length j

/-- The claim's working log-prob at position `i`: the input log-prob
reduced by the fixed `0.8` pronoun penalty when `tokens[i]` is a pronoun
id. -/
def specWorkingLp (pronoun tokens : List ℕ) (logProbs : List ℚ) (i : ℕ) : ℚ :=
  logProbs.getD i 0 - (if tokens.getD i 0 ∈ pronoun then 4 / 5 else 0)

/-- The claim's formula for `_smart_avg_log_prob`: `0.75` times the mean
of the working log-probs plus `0.25` times the dot product of the
weight vector normalized to sum `1` with the working log-probs. -/
def specSmartAvg (startSent stopword pronoun tokens : List ℕ)
    (logProbs : List ℚ) : ℚ :=
  let n := tokens.length
  let lpW := (List.range n).map (specWorkingLp pronoun tokens logProbs)
  let w := (List.range n).map (specWeight startSent stopword tokens)
  let s := w.sum
  3 / 4 * (lpW.sum / (n : ℚ)) +
    1 / 4 * (List.zipWith (fun a b => a / s * b) w lpW).sum

/-- Whether some contiguous 3-gram occurs at two distinct window starts
below `c` (spec side, bounded search). -/
def dupUpTo (tokens : List ℕ) (c : ℕ) : Bool :=
  (List.range c).any (fun j => (List.range j).any (fun i =>
    decide ((tokens.drop i).take 3 = (tokens.drop j).take 3)))

/-- Whether some contiguous 3-token subsequence of `tokens` occurs twice
(spec side). -/
def hasRepeatedTrigram (tokens : List ℕ) : Bool :=
  dupUpTo tokens (tokens.length + 1 - 3)

/-- The claim's disqualification condition (spec side): some interior
token (neither first nor last), or a final token that is not the stop
token, lies below the free-vocabulary threshold. -/
def specHasUnknown (nFree stopTok : ℕ) (tokens : List ℕ) : Prop :=
  (∃ i, 1 ≤ i ∧ i + 1 < tokens.length ∧ tokens.getD i 0 < nFree) ∨
    (tokens.getLastD 0 < nFree ∧ tokens.getLastD 0 ≠ stopTok)

/-! ### Theorems -/

lemma dupUpTo_true_of (t : List ℕ) {i j c : ℕ} (hij : i < j) (hjc : j < c)
    (hg : (t.drop i).take 3 = (t.drop j).take 3) : dupUpTo t c = true := by
  simp only [dupUpTo, List.any_eq_true, List.mem_range]
  exact ⟨j, hjc, i, hij, by simpa using hg⟩

lemma dupUpTo_succ (t : List ℕ) (a : ℕ) :
    dupUpTo t (a + 1) =
      (dupUpTo t a ||
        (List.range a).any (fun i =>
          decide ((t.drop i).take 3 = (t.drop a).take 3))) := by
  simp [dupUpTo, List.range_succ]

/-- The seen-set scan of `repeated_n_gram_loss`, run from window index `a`
with `seen` holding exactly the 3-grams of the first `a` windows (none of
them repeated), returns the sentinel iff some repeat exists among the
first `a + k` windows. -/
lemma scanNGrams_spec (t : List ℕ) : ∀ (k a : ℕ) (seen : List (List ℕ)),
    (∀ g, g ∈ seen ↔ ∃ i < a, (t.drop i).take 3 = g) →
    dupUpTo t a = false →
    scanNGrams t (List.range' a k) seen =
      if dupUpTo t (a + k) then 10 ^ 6 else 0 := by
  intro k
  induction k with
  | zero =>
    intro a seen hseen hdup
    simp [scanNGrams, hdup]
  | succ k ih =>
    intro a seen hseen hdup
    rw [List.range'_succ]
    simp only [scanNGrams]
    by_cases hg : (t.drop a).take 3 ∈ seen
    · rw [if_pos hg]
      obtain ⟨i, hia, hgi⟩ := (hseen _).1 hg
      rw [dupUpTo_true_of t hia (by omega) hgi]
      rfl
    · rw [if_neg hg]
      have hnew : dupUpTo t (a + 1) = false := by
        rw [dupUpTo_succ, hdup, Bool.false_or]
        simp only [List.any_eq_false, List.mem_range, decide_eq_true_eq]
        intro i hi hgi
        exact hg ((hseen _).2 ⟨i, hi, hgi⟩)
      have hseen' : ∀ g, g ∈ (t.drop a).take 3 :: seen ↔
          ∃ i < a + 1, (t.drop i).take 3 = g := by
        intro g
        simp only [List.mem_cons, hseen]
        constructor
        · rintro (h | ⟨i, hi, hgi⟩)
          · exact ⟨a, by omega, h.symm⟩
          · exact ⟨i, by omega, hgi⟩
        · rintro ⟨i, hi, hgi⟩
          rcases Nat.lt_succ_iff_lt_or_eq.1 hi with h | h
          · exact Or.inr ⟨i, h, hgi⟩
          · exact Or.inl (by rw [← hgi, h])
      have := ih (a + 1) _ hseen' hnew
      rw [this, Nat.add_right_comm a 1 k, Nat.add_assoc]

/-- Membership in the Python slice `tokens[1:-1]` is exactly occurrence at
an interior index. -/
lemma mem_interior_iff (t : List ℕ) (x : ℕ) :
    x ∈ (t.drop 1).dropLast ↔
      ∃ i, 1 ≤ i ∧ i + 1 < t.length ∧ t.getD i 0 = x := by
  have hlen : (t.drop 1).dropLast.length = t.length - 1 - 1 := by
    simp [List.length_dropLast, List.length_drop]
  constructor
  · intro hx
    obtain ⟨i, hi, hxi⟩ := List.mem_iff_getElem.1 hx
    refine ⟨i + 1, by omega, by omega, ?_⟩
    rw [List.getElem_dropLast, List.getElem_drop] at hxi
    rw [← hxi, List.getD_eq_getElem t 0 (show i + 1 < t.length by omega)]
    congr 1
    omega
  · rintro ⟨i, h1, h2, hxi⟩
    refine List.mem_iff_getElem.2 ⟨i - 1, by omega, ?_⟩
    rw [List.getElem_dropLast, List.getElem_drop,
      ← List.getD_eq_getElem t 0 (show 1 + (i - 1) < t.length by omega)]
    rw [show 1 + (i - 1) = i by omega]
    exact hxi

/-- `_has_unknown_token` agrees with the claim's description. -/
lemma hasUnknownToken_iff {σ : Type} (nFree stopTok : ℕ) (h : Hypothesis σ) :
    hasUnknownToken nFree stopTok h = true ↔
      specHasUnknown nFree stopTok h.tokens := by
  unfold hasUnknownToken specHasUnknown Hypothesis.latestToken
  simp only [Bool.or_eq_true, Bool.and_eq_true, decide_eq_true_eq,
    List.any_eq_true]
  constructor
  · rintro (⟨x, hx, hlt⟩ | hlast)
    · obtain ⟨i, h1, h2, hxi⟩ := (mem_interior_iff _ _).1 hx
      exact Or.inl ⟨i, h1, h2, by rw [hxi]; exact hlt⟩
    · exact Or.inr hlast
  · rintro (⟨i, h1, h2, hlt⟩ | hlast)
    · exact Or.inl ⟨h.tokens.getD i 0, (mem_interior_iff _ _).2 ⟨i, h1, h2, rfl⟩, hlt⟩
    · exact Or.inr hlast

/-- C5: `avg_log_prob` returns the sentinel `-10^6` exactly when the
hypothesis has an unknown token in the claim's sense (some interior
token, or a final token differing from the stop token, below the
free-vocabulary threshold), and otherwise `sum(log_probs)` divided by
the token count `len(tokens)` (which includes the start token and need
not equal the log-prob count). -/
theorem avg_log_prob_sentinel_or_token_mean {σ : Type} (nFree stopTok : ℕ)
    (h : Hypothesis σ) (hne : h.tokens ≠ []) :
    (specHasUnknown nFree stopTok h.tokens →
      avgLogProb nFree stopTok h = -10 ^ 6) ∧
    (¬ specHasUnknown nFree stopTok h.tokens →
      avgLogProb nFree stopTok h = h.log_probs.sum / (h.tokens.length : ℚ)) := by
  constructor
  · intro hs
    unfold avgLogProb
    rw [if_pos ((hasUnknownToken_iff nFree stopTok h).2 hs)]
  · intro hs
    unfold avgLogProb
    rw [if_neg (fun hb => hs ((hasUnknownToken_iff nFree stopTok h).1 hb))]

/-- C5 (witness): the spec's own example — threshold 5, tokens
`[0, 2, 7, 8]` — the interior token 2 disqualifies regardless of the
log-probs, and the theorem yields the sentinel. -/
theorem avg_log_prob_sentinel_witness :
    (Hypothesis.mk [0, 2, 7, 8] [-1, -1, -1, -1] () [] [] [] : Hypothesis Unit).tokens ≠ [] ∧
    ((specHasUnknown 5 99 [0, 2, 7, 8] →
        avgLogProb 5 99
          (Hypothesis.mk [0, 2, 7, 8] [-1, -1, -1, -1] () [] [] [] : Hypothesis Unit) =
          -10 ^ 6) ∧
      (¬ specHasUnknown 5 99 [0, 2, 7, 8] →
        avgLogProb 5 99
          (Hypothesis.mk [0, 2, 7, 8] [-1, -1, -1, -1] () [] [] [] : Hypothesis Unit) =
          [-1, -1, -1, -1].sum / (([0, 2, 7, 8] : List ℕ).length : ℚ))) :=
  ⟨by decide,
    avg_log_prob_sentinel_or_token_mean 5 99
      (Hypothesis.mk [0, 2, 7, 8] [-1, -1, -1, -1] () [] [] [] : Hypothesis Unit)
      (by decide)⟩

/-- A fold whose two product components never interact splits into two
independent folds. -/
lemma foldl_prod_split {ι α β : Type} (l : List ι) (f : α → ι → α)
    (g : β → ι → β) (a : α) (b : β) :
    l.foldl (fun p i => (f p.1 i, g p.2 i)) (a, b) =
      (l.foldl f a, l.foldl g b) := by
  induction l generalizing a b with
  | nil => rfl
  | cons x xs ih => simp [List.foldl_cons, ih]

/-- The single source loop of `_smart_avg_log_prob` splits into the
weights-only fold and the log-probs-only fold. -/
lemma smartPass_eq (ss sw pr t : List ℕ) (lp : List ℚ) :
    smartPass ss sw pr t lp =
      ((List.range t.length).foldl (wStep ss sw t) (List.replicate t.length 0),
        (List.range t.length).foldl (lpStep pr t) lp) :=
  foldl_prod_split (List.range t.length) (wStep ss sw t) (lpStep pr t) _ lp

lemma getD_set_rat (l : List ℚ) (i j : ℕ) (v : ℚ) :
    (l.set i v).getD j 0 = if i = j ∧ j < l.length then v else l.getD j 0 := by
  rw [List.getD_eq_getElem?_getD, List.getElem?_set, List.getD_eq_getElem?_getD]
  by_cases hij : i = j
  · subst hij
    by_cases hlen : i < l.length
    · simp [hlen]
    · simp [hlen, List.getElem?_eq_none (show l.length ≤ i by omega)]
  · simp [hij, fun h : i = j ∧ j < l.length => hij h.1]

lemma getD_replicate_rat (n j : ℕ) : (List.replicate n (0 : ℚ)).getD j 0 = 0 := by
  rw [List.getD_eq_getElem?_getD, List.getElem?_replicate]
  by_cases h : j < n <;> simp [h]

lemma getD_map_range (f : ℕ → ℚ) (n j : ℕ) (h : j < n) :
    ((List.range n).map f).getD j 0 = f j := by
  rw [List.getD_eq_getElem _ _ (by simp [h])]
  simp

lemma eq_of_length_getD (l1 l2 : List ℚ) (hlen : l1.length = l2.length)
    (h : ∀ j, j < l1.length → l1.getD j 0 = l2.getD j 0) : l1 = l2 := by
  refine List.ext_getElem hlen ?_
  intro n h1 h2
  have hn := h n h1
  rwa [List.getD_eq_getElem _ _ h1, List.getD_eq_getElem _ _ h2] at hn

lemma wWrite_length (sw t : List ℕ) (i : ℕ) (w : List ℚ) (a : ℕ) :
    (wWrite sw t i w a).length = w.length := by
  unfold wWrite
  by_cases hm : t.getD a 0 ∈ sw
  · rw [if_pos hm]
  · rw [if_neg hm, List.length_set]

lemma wWrite_getD_ne (sw t : List ℕ) (i : ℕ) (w : List ℚ) {a j : ℕ}
    (h : j ≠ a) : (wWrite sw t i w a).getD j 0 = w.getD j 0 := by
  unfold wWrite
  by_cases hm : t.getD a 0 ∈ sw
  · rw [if_pos hm]
  · rw [if_neg hm, getD_set_rat, if_neg (fun hd => h hd.1.symm)]

lemma wWrite_getD_self (sw t : List ℕ) (i : ℕ) (w : List ℚ) (a : ℕ) :
    (wWrite sw t i w a).getD a 0 =
      if a < w.length ∧ ¬ t.getD a 0 ∈ sw then 1 / ((a - i + 5 : ℕ) : ℚ)
      else w.getD a 0 := by
  unfold wWrite
  by_cases hm : t.getD a 0 ∈ sw
  · rw [if_pos hm, if_neg (by tauto)]
  · rw [if_neg hm, getD_set_rat]
    by_cases hw : a < w.length
    · rw [if_pos ⟨rfl, hw⟩, if_pos ⟨hw, hm⟩]
    · rw [if_neg (by tauto), if_neg (by tauto)]

lemma windowFold_length (sw t : List ℕ) (i : ℕ) :
    ∀ (idx : List ℕ) (w : List ℚ), (windowFold sw t i idx w).length = w.length := by
  intro idx
  induction idx with
  | nil => intro w; rfl
  | cons a rest ih =>
    intro w
    show (windowFold sw t i rest (wWrite sw t i w a)).length = _
    rw [ih, wWrite_length]

/-- Pointwise effect of one window pass: positions inside the processed
range that are not stopwords receive `1/(j − i + 5)`; everything else is
untouched (a `set` beyond the list length is a no-op, matching the fact
that the source range never exceeds `len(tokens)`). -/
lemma windowFold_getD (sw t : List ℕ) (i : ℕ) :
    ∀ (k a : ℕ) (w : List ℚ) (j : ℕ),
      (windowFold sw t i (List.range' a k) w).getD j 0 =
        if a ≤ j ∧ j < a + k ∧ j < w.length ∧ ¬ t.getD j 0 ∈ sw
        then 1 / ((j - i + 5 : ℕ) : ℚ) else w.getD j 0 := by
  intro k
  induction k with
  | zero =>
    intro a w j
    rw [if_neg (by omega)]
    rfl
  | succ k ih =>
    intro a w j
    rw [List.range'_succ]
    show (windowFold sw t i (List.range' (a + 1) k) (wWrite sw t i w a)).getD j 0 = _
    rw [ih, wWrite_length]
    by_cases hj : j = a
    · subst hj
      rw [if_neg (by omega), wWrite_getD_self]
      by_cases hm : t.getD j 0 ∈ sw
      · rw [if_neg (by tauto), if_neg (by tauto)]
      · by_cases hw : j < w.length
        · rw [if_pos ⟨hw, hm⟩, if_pos ⟨le_refl j, by omega, hw, hm⟩]
        · rw [if_neg (by tauto), if_neg (by tauto)]
    · rw [wWrite_getD_ne sw t i w hj]
      by_cases hc : a + 1 ≤ j ∧ j < a + 1 + k ∧ j < w.length ∧ ¬ t.getD j 0 ∈ sw
      · rw [if_pos hc, if_pos ⟨by omega, by omega, hc.2.2.1, hc.2.2.2⟩]
      · rw [if_neg hc, if_neg (fun hd => hc ⟨by omega, by omega, hd.2.2.1, hd.2.2.2⟩)]

lemma lastSentStart_succ (ss t : List ℕ) (m j : ℕ) :
    lastSentStart ss t (m + 1) j =
      if m < j ∧ j ≤ m + 4 ∧ t.getD m 0 ∈ ss then some m
      else lastSentStart ss t m j := by
  unfold lastSentStart
  by_cases hmj : m < j
  · rw [show min (m + 1) j = m + 1 by omega, show min m j = m by omega,
      List.range_succ, List.filter_append]
    by_cases hc : (decide (j ≤ m + 4) && decide (t.getD m 0 ∈ ss)) = true
    · have hc' : j ≤ m + 4 ∧ t.getD m 0 ∈ ss := by
        rw [Bool.and_eq_true, decide_eq_true_eq, decide_eq_true_eq] at hc
        exact hc
      rw [List.filter_cons, if_pos hc]
      simp only [List.filter_nil]
      rw [List.getLast?_concat, if_pos ⟨hmj, hc'.1, hc'.2⟩]
    · rw [List.filter_cons, if_neg hc]
      simp only [List.filter_nil, List.append_nil]
      rw [if_neg (fun hd => hc (by
        rw [Bool.and_eq_true, decide_eq_true_eq, decide_eq_true_eq]
        exact ⟨hd.2.1, hd.2.2⟩))]
  · rw [show min (m + 1) j = min m j by omega, if_neg (by tauto)]

lemma wStep_mem (ss sw t : List ℕ) (w : List ℚ) (i : ℕ)
    (h : t.getD i 0 ∈ ss) :
    wStep ss sw t w i =
      windowFold sw t i (List.range' (i + 1) (min t.length (i + 5) - (i + 1))) w := by
  unfold wStep
  rw [if_pos h]

lemma wStep_not_mem (ss sw t : List ℕ) (w : List ℚ) (i : ℕ)
    (h : ¬ t.getD i 0 ∈ ss) : wStep ss sw t w i = w := by
  unfold wStep
  rw [if_neg h]

lemma specWeightUpTo_zero (ss sw t : List ℕ) (j : ℕ) :
    specWeightUpTo ss sw t 0 j = 0 := by
  unfold specWeightUpTo lastSentStart
  simp [Nat.zero_min]

lemma specWeightUpTo_stopword (ss sw t : List ℕ) (m j : ℕ)
    (h : t.getD j 0 ∈ sw) : specWeightUpTo ss sw t m j = 0 := by
  unfold specWeightUpTo
  rw [if_pos h]

lemma specWeightUpTo_succ_out (ss sw t : List ℕ) (m j : ℕ)
    (h : ¬ (m < j ∧ j ≤ m + 4 ∧ t.getD m 0 ∈ ss)) :
    specWeightUpTo ss sw t (m + 1) j = specWeightUpTo ss sw t m j := by
  unfold specWeightUpTo
  rw [lastSentStart_succ, if_neg h]

lemma specWeightUpTo_succ_in (ss sw t : List ℕ) (m j : ℕ)
    (h : m < j ∧ j ≤ m + 4 ∧ t.getD m 0 ∈ ss) :
    specWeightUpTo ss sw t (m + 1) j =
      if t.getD j 0 ∈ sw then 0 else 1 / ((j - m + 5 : ℕ) : ℚ) := by
  unfold specWeightUpTo
  rw [lastSentStart_succ, if_pos h]

/-- Pointwise characterization of the sentence-start weight vector after
the first `m` iterations of the source loop. -/
lemma wfold_spec (ss sw t : List ℕ) :
    ∀ m, m ≤ t.length →
      ((List.range m).foldl (wStep ss sw t)
          (List.replicate t.length 0)).length = t.length ∧
      ∀ j, ((List.range m).foldl (wStep ss sw t)
          (List.replicate t.length 0)).getD j 0 =
        if j < t.length then specWeightUpTo ss sw t m j else 0 := by
  intro m
  induction m with
  | zero =>
    intro _
    refine ⟨by simp, fun j => ?_⟩
    simp [List.range_zero, List.foldl_nil, specWeightUpTo_zero, getD_replicate_rat]
  | succ m ih =>
    intro hm
    obtain ⟨ihlen, ihget⟩ := ih (by omega)
    rw [List.range_succ, List.foldl_append, List.foldl_cons, List.foldl_nil]
    by_cases hs : t.getD m 0 ∈ ss
    · rw [wStep_mem ss sw t _ m hs]
      refine ⟨by rw [windowFold_length, ihlen], fun j => ?_⟩
      rw [windowFold_getD, ihlen]
      have hup : m + 1 + (min t.length (m + 5) - (m + 1)) = min t.length (m + 5) := by
        omega
      by_cases hjlen : j < t.length
      · rw [if_pos hjlen]
        by_cases hwin : m < j ∧ j ≤ m + 4
        · by_cases hsw : t.getD j 0 ∈ sw
          · rw [if_neg (by tauto), ihget, if_pos hjlen,
              specWeightUpTo_stopword ss sw t m j hsw,
              specWeightUpTo_succ_in ss sw t m j ⟨hwin.1, hwin.2, hs⟩, if_pos hsw]
          · rw [if_pos ⟨by omega, by omega, hjlen, hsw⟩,
              specWeightUpTo_succ_in ss sw t m j ⟨hwin.1, hwin.2, hs⟩, if_neg hsw]
        · rw [if_neg (by omega), ihget, if_pos hjlen,
            specWeightUpTo_succ_out ss sw t m j (by tauto)]
      · rw [if_neg (by omega), ihget, if_neg hjlen, if_neg hjlen]
    · rw [wStep_not_mem ss sw t _ m hs]
      refine ⟨ihlen, fun j => ?_⟩
      rw [ihget]
      by_cases hjlen : j < t.length
      · rw [if_pos hjlen, if_pos hjlen,
          specWeightUpTo_succ_out ss sw t m j (by tauto)]
      · rw [if_neg hjlen, if_neg hjlen]

lemma lpStep_mem (pr t : List ℕ) (lp : List ℚ) (i : ℕ)
    (h : t.getD i 0 ∈ pr) :
    lpStep pr t lp i = lp.set i (lp.getD i 0 - 4 / 5) := by
  unfold lpStep
  rw [if_pos h]

lemma lpStep_not_mem (pr t : List ℕ) (lp : List ℚ) (i : ℕ)
    (h : ¬ t.getD i 0 ∈ pr) : lpStep pr t lp i = lp := by
  unfold lpStep
  rw [if_neg h]

/-- Pointwise characterization of the working log-prob vector after the
first `m` iterations of the source loop. -/
lemma lpfold_spec (pr t : List ℕ) (lp0 : List ℚ) :
    ∀ m,
      ((List.range m).foldl (lpStep pr t) lp0).length = lp0.length ∧
      ∀ i, ((List.range m).foldl (lpStep pr t) lp0).getD i 0 =
        if i < m ∧ i < lp0.length then specWorkingLp pr t lp0 i
        else lp0.getD i 0 := by
  intro m
  induction m with
  | zero =>
    exact ⟨rfl, fun i => by rw [List.range_zero, List.foldl_nil, if_neg (by omega)]⟩
  | succ m ih =>
    obtain ⟨ihlen, ihget⟩ := ih
    rw [List.range_succ, List.foldl_append, List.foldl_cons, List.foldl_nil]
    by_cases hp : t.getD m 0 ∈ pr
    · rw [lpStep_mem pr t _ m hp]
      refine ⟨by rw [List.length_set, ihlen], fun i => ?_⟩
      rw [getD_set_rat, ihlen]
      have hmval : ((List.range m).foldl (lpStep pr t) lp0).getD m 0 =
          lp0.getD m 0 := by
        rw [ihget, if_neg (by omega)]
      by_cases hi : m = i ∧ i < lp0.length
      · obtain ⟨rfl, hilen⟩ := hi
        rw [if_pos ⟨rfl, hilen⟩, hmval, if_pos ⟨by omega, hilen⟩]
        unfold specWorkingLp
        rw [if_pos hp]
      · rw [if_neg hi, ihget]
        by_cases hc : i < m ∧ i < lp0.length
        · rw [if_pos hc, if_pos ⟨by omega, hc.2⟩]
        · rw [if_neg hc, if_neg (fun hd => by
            rcases Nat.lt_succ_iff_lt_or_eq.1 hd.1 with h | h
            · exact hc ⟨h, hd.2⟩
            · exact hi ⟨h.symm, hd.2⟩)]
    · rw [lpStep_not_mem pr t _ m hp]
      refine ⟨ihlen, fun i => ?_⟩
      rw [ihget]
      by_cases hi : i = m ∧ i < lp0.length
      · obtain ⟨rfl, hilen⟩ := hi
        rw [if_neg (by omega), if_pos ⟨by omega, hilen⟩]
        unfold specWorkingLp
        rw [if_neg hp, sub_zero]
      · by_cases hc : i < m ∧ i < lp0.length
        · rw [if_pos hc, if_pos ⟨by omega, hc.2⟩]
        · rw [if_neg hc, if_neg (fun hd => by
            rcases Nat.lt_succ_iff_lt_or_eq.1 hd.1 with h | h
            · exact hc ⟨h, hd.2⟩
            · exact hi ⟨h, hd.2⟩)]

/-- C4: for every hypothesis (in particular any without unknown tokens —
`_smart_avg_log_prob` never consults the unknown-token test) whose
sequences satisfy the constructor invariant and whose weight vector has
nonzero sum, `_smart_avg_log_prob` equals the claim's formula:
`0.75 · mean(working log-probs) + 0.25 · (normalized weights · working
log-probs)`, with the weight vector characterized pointwise by the
last-writer-wins window rule (`specWeight`) and the working log-probs by
the `0.8` pronoun penalty (`specWorkingLp`). -/
theorem smart_avg_log_prob_formula {σ : Type} (ss sw pr : List ℕ)
    (h : Hypothesis σ) (hne : h.tokens ≠ [])
    (hlen : h.log_probs.length = h.tokens.length)
    (hS : ((List.range h.tokens.length).map (specWeight ss sw h.tokens)).sum ≠ 0) :
    smartAvgLogProb ss sw pr h =
      some (specSmartAvg ss sw pr h.tokens h.log_probs) := by
  have hw : (List.range h.tokens.length).foldl (wStep ss sw h.tokens)
      (List.replicate h.tokens.length 0) =
      (List.range h.tokens.length).map (specWeight ss sw h.tokens) := by
    obtain ⟨hl, hg⟩ := wfold_spec ss sw h.tokens h.tokens.length (le_refl _)
    refine eq_of_length_getD _ _ (by rw [hl]; simp) (fun j hj => ?_)
    rw [hl] at hj
    rw [hg j, if_pos hj, getD_map_range _ _ _ hj]
    rfl
  have hlp : (List.range h.tokens.length).foldl (lpStep pr h.tokens)
      h.log_probs =
      (List.range h.tokens.length).map (specWorkingLp pr h.tokens h.log_probs) := by
    obtain ⟨hl, hg⟩ := lpfold_spec pr h.tokens h.log_probs h.tokens.length
    refine eq_of_length_getD _ _ (by rw [hl, hlen]; simp) (fun i hi => ?_)
    rw [hl, hlen] at hi
    rw [hg i, if_pos ⟨hi, by omega⟩, getD_map_range _ _ _ hi]
  unfold smartAvgLogProb
  rw [smartPass_eq, hw, hlp]
  have hn0 : h.tokens.length ≠ 0 := fun h0 =>
    hne (List.eq_nil_of_length_eq_zero h0)
  rw [if_neg (by
    push_neg
    refine ⟨hS, ?_⟩
    rw [List.length_map, List.length_range]
    exact hn0)]
  unfold specSmartAvg
  rw [List.zipWith_map_left]
  congr 2
  rw [List.length_map, List.length_range]

/-- C4 (witness): the theorem applied to the concrete hypothesis with
tokens `[0, 7]`, `start_sent_ids = {0}` and log-probs `[-1, -2]`: the
window of position 0 writes weight `1/6` into position 1, so the sum is
nonzero. -/
theorem smart_avg_log_prob_formula_witness :
    (Hypothesis.mk [0, 7] [-1, -2] () [] [] [] : Hypothesis Unit).tokens ≠ [] ∧
    ((Hypothesis.mk [0, 7] [-1, -2] () [] [] [] : Hypothesis Unit).log_probs.length =
      (Hypothesis.mk [0, 7] [-1, -2] () [] [] [] : Hypothesis Unit).tokens.length) ∧
    ((List.range (([0, 7] : List ℕ)).length).map (specWeight [0] [] [0, 7])).sum ≠ 0 ∧
    smartAvgLogProb [0] [] []
        (Hypothesis.mk [0, 7] [-1, -2] () [] [] [] : Hypothesis Unit) =
      some (specSmartAvg [0] [] [] [0, 7] [-1, -2]) := by
  have hS : ((List.range (([0, 7] : List ℕ)).length).map
      (specWeight [0] [] [0, 7])).sum ≠ 0 := by
    simp only [List.length_cons, List.length_nil, List.range_succ, List.range_zero,
      List.map_append, List.map_cons, List.map_nil]
    unfold specWeight specWeightUpTo lastSentStart
    norm_num [List.filter_cons, List.range_succ]
  refine ⟨by decide, by decide, hS, ?_⟩
  exact smart_avg_log_prob_formula [0] [] []
    (Hypothesis.mk [0, 7] [-1, -2] () [] [] [] : Hypothesis Unit)
    (by decide) (by decide) hS

lemma pyGe_trans {a b c : Option ℚ} (h1 : pyGe a b = true)
    (h2 : pyGe b c = true) : pyGe a c = true := by
  cases a <;> cases b <;> cases c <;> simp [pyGe] at *
  exact le_trans h2 h1

lemma pyGe_total {a b : Option ℚ} (ha : a.isSome = true) (hb : b.isSome = true)
    (h : ¬ pyGe a b = true) : pyGe b a = true := by
  cases a <;> cases b <;> simp [pyGe] at *
  exact le_of_lt h

lemma insertByKey_perm {α : Type} (key : α → Option ℚ) (x : α) (l : List α) :
    (insertByKey key x l).Perm (x :: l) := by
  induction l with
  | nil => simp [insertByKey]
  | cons y ys ih =>
    simp only [insertByKey]
    by_cases hp : pyGe (key x) (key y) = true
    · rw [if_pos hp]
    · rw [if_neg hp]
      exact (ih.cons y).trans (List.Perm.swap x y ys)

lemma sortByKey_perm {α : Type} (key : α → Option ℚ) (l : List α) :
    (sortByKey key l).Perm l := by
  induction l with
  | nil => simp [sortByKey]
  | cons x xs ih =>
    simp only [sortByKey, List.foldr_cons]
    exact (insertByKey_perm key x _).trans (ih.cons x)

lemma pairwise_insertByKey {α : Type} (key : α → Option ℚ) (x : α)
    (l : List α) (hx : (key x).isSome = true)
    (hl : ∀ y ∈ l, (key y).isSome = true)
    (h : l.Pairwise (fun a b => pyGe (key a) (key b) = true)) :
    (insertByKey key x l).Pairwise (fun a b => pyGe (key a) (key b) = true) := by
  induction l with
  | nil => simp [insertByKey]
  | cons y ys ih =>
    simp only [insertByKey]
    rcases List.pairwise_cons.1 h with ⟨hy, hys⟩
    by_cases hp : pyGe (key x) (key y) = true
    · rw [if_pos hp]
      refine List.pairwise_cons.2 ⟨?_, h⟩
      intro z hz
      rcases List.mem_cons.1 hz with hz | hz
      · rw [hz]; exact hp
      · exact pyGe_trans hp (hy z hz)
    · rw [if_neg hp]
      refine List.pairwise_cons.2
        ⟨?_, ih (fun z hz => hl z (List.mem_cons_of_mem y hz)) hys⟩
      intro z hz
      rcases List.mem_cons.1 ((insertByKey_perm key x ys).mem_iff.1 hz) with hz | hz
      · rw [hz]
        exact pyGe_total hx (hl y (List.mem_cons_self y ys)) hp
      · exact hy z hz

lemma sortByKey_pairwise {α : Type} (key : α → Option ℚ) (l : List α)
    (hl : ∀ y ∈ l, (key y).isSome = true) :
    (sortByKey key l).Pairwise (fun a b => pyGe (key a) (key b) = true) := by
  induction l with
  | nil => simp [sortByKey]
  | cons x xs ih =>
    simp only [sortByKey, List.foldr_cons]
    refine pairwise_insertByKey key x _ (hl x (List.mem_cons_self x xs)) ?_ ?_
    · intro y hy
      exact hl y (List.mem_cons_of_mem x ((sortByKey_perm key xs).mem_iff.1 hy))
    · exact ih (fun y hy => hl y (List.mem_cons_of_mem x hy))

lemma filter_insertByKey_of_eq {α : Type} (key : α → Option ℚ) (x : α) (c : ℚ)
    (l : List α) (hx : key x = some c) :
    (insertByKey key x l).filter (fun y => decide (key y = some c)) =
      x :: l.filter (fun y => decide (key y = some c)) := by
  induction l with
  | nil => simp [insertByKey, hx]
  | cons y ys ih =>
    simp only [insertByKey]
    by_cases hp : pyGe (key x) (key y) = true
    · rw [if_pos hp]
      simp [List.filter_cons, hx]
    · rw [if_neg hp]
      have hy : ¬ key y = some c := by
        intro hyc
        exact hp (by rw [hx, hyc]; simp [pyGe])
      simp [List.filter_cons, hy, ih]

lemma filter_insertByKey_of_ne {α : Type} (key : α → Option ℚ) (x : α) (c : ℚ)
    (l : List α) (hx : ¬ key x = some c) :
    (insertByKey key x l).filter (fun y => decide (key y = some c)) =
      l.filter (fun y => decide (key y = some c)) := by
  induction l with
  | nil => simp [insertByKey, hx]
  | cons y ys ih =>
    simp only [insertByKey]
    by_cases hp : pyGe (key x) (key y) = true
    · rw [if_pos hp]
      simp [List.filter_cons, hx]
    · rw [if_neg hp]
      simp [List.filter_cons, ih]

lemma sortByKey_filter_stable {α : Type} (key : α → Option ℚ) (l : List α)
    (c : ℚ) :
    (sortByKey key l).filter (fun y => decide (key y = some c)) =
      l.filter (fun y => decide (key y = some c)) := by
  induction l with
  | nil => simp [sortByKey]
  | cons x xs ih =>
    simp only [sortByKey, List.foldr_cons]
    by_cases hx : key x = some c
    · rw [filter_insertByKey_of_eq key x c _ hx,
        show List.foldr (insertByKey key) [] xs = sortByKey key xs from rfl, ih]
      simp [List.filter_cons, hx]
    · rw [filter_insertByKey_of_ne key x c _ hx,
        show List.foldr (insertByKey key) [] xs = sortByKey key xs from rfl, ih]
      simp [List.filter_cons, hx]

/-- C7: `sort_hyps` is a permutation of its input sorted in descending
order of the selected scoring function (the comparison holds for every
pair of computed scores), and it is stable: for every score value `c`,
the sublist of hypotheses scoring `c` appears in the output in exactly
its input order — so two hypotheses with equal computed score keep their
relative input order.  (The hypothesis that every selected score is an
actual number excludes the NaN scores on which Python's `sorted` is
unspecified.) -/
theorem sort_hyps_stable_descending {σ : Type} (cfg : Config)
    (l : List (Hypothesis σ)) (hall : ∀ h ∈ l, (keyOf cfg h).isSome = true) :
    (sortHyps cfg l).Perm l ∧
    (sortHyps cfg l).Pairwise (fun a b => ∀ qa qb, keyOf cfg a = some qa →
      keyOf cfg b = some qb → qb ≤ qa) ∧
    ∀ c : ℚ, (sortHyps cfg l).filter (fun h => decide (keyOf cfg h = some c)) =
      l.filter (fun h => decide (keyOf cfg h = some c)) := by
  refine ⟨sortByKey_perm (keyOf cfg) l, ?_,
    fun c => sortByKey_filter_stable (keyOf cfg) l c⟩
  refine (sortByKey_pairwise (keyOf cfg) l hall).imp ?_
  intro a b hab qa qb ha hb
  rw [ha, hb] at hab
  simpa [pyGe] using hab

/-- C7 (witness): the theorem applied to two concrete hypotheses with
equal scores under the plain `avg_log_prob` mode. -/
theorem sort_hyps_stable_descending_witness :
    (∀ h ∈ [(⟨[5], [0], (), [], [], []⟩ : Hypothesis Unit),
            (⟨[6], [0], (), [], [], []⟩ : Hypothesis Unit)],
      (keyOf ⟨1, 1, 0, 1, 0, false, [], [], [], id⟩ h).isSome = true) ∧
    ((sortHyps ⟨1, 1, 0, 1, 0, false, [], [], [], id⟩
        [(⟨[5], [0], (), [], [], []⟩ : Hypothesis Unit),
         (⟨[6], [0], (), [], [], []⟩ : Hypothesis Unit)]).Perm
        [(⟨[5], [0], (), [], [], []⟩ : Hypothesis Unit),
         (⟨[6], [0], (), [], [], []⟩ : Hypothesis Unit)] ∧
      (sortHyps ⟨1, 1, 0, 1, 0, false, [], [], [], id⟩
        [(⟨[5], [0], (), [], [], []⟩ : Hypothesis Unit),
         (⟨[6], [0], (), [], [], []⟩ : Hypothesis Unit)]).Pairwise
        (fun a b => ∀ qa qb,
          keyOf ⟨1, 1, 0, 1, 0, false, [], [], [], id⟩ a = some qa →
          keyOf ⟨1, 1, 0, 1, 0, false, [], [], [], id⟩ b = some qb → qb ≤ qa) ∧
      ∀ c : ℚ,
        (sortHyps ⟨1, 1, 0, 1, 0, false, [], [], [], id⟩
          [(⟨[5], [0], (), [], [], []⟩ : Hypothesis Unit),
           (⟨[6], [0], (), [], [], []⟩ : Hypothesis Unit)]).filter
          (fun h => decide (keyOf ⟨1, 1, 0, 1, 0, false, [], [], [], id⟩ h = some c)) =
        ([(⟨[5], [0], (), [], [], []⟩ : Hypothesis Unit),
          (⟨[6], [0], (), [], [], []⟩ : Hypothesis Unit)]).filter
          (fun h => decide (keyOf ⟨1, 1, 0, 1, 0, false, [], [], [], id⟩ h = some c))) :=
  ⟨by intro h hm; rfl,
    sort_hyps_stable_descending ⟨1, 1, 0, 1, 0, false, [], [], [], id⟩
      [(⟨[5], [0], (), [], [], []⟩ : Hypothesis Unit),
       (⟨[6], [0], (), [], [], []⟩ : Hypothesis Unit)]
      (by intro h hm; rfl)⟩

/-- C6: `repeated_n_gram_loss` returns exactly `0` when no contiguous
3-token subsequence of `tokens` occurs twice and exactly `10^6` when one
does (the scan over the `len+1-3` window starts with the seen-set
short-circuits on the first repeat), including the claim's two concrete
examples. -/
theorem repeated_n_gram_loss_zero_or_sentinel :
    ∀ tokens : List ℕ,
      (repeatedNGramLoss tokens = if hasRepeatedTrigram tokens then 10 ^ 6 else 0) ∧
      (hasRepeatedTrigram tokens = true ↔
        ∃ i j, i < j ∧ j + 3 ≤ tokens.length ∧
          (tokens.drop i).take 3 = (tokens.drop j).take 3) ∧
      repeatedNGramLoss [1, 2, 3, 4, 2, 3, 4] = 10 ^ 6 ∧
      repeatedNGramLoss [1, 2, 3, 4, 5, 6] = 0 := by
  intro tokens
  refine ⟨?_, ?_, by rfl, by rfl⟩
  · have h := scanNGrams_spec tokens (tokens.length + 1 - 3) 0 [] (by simp)
      (by simp [dupUpTo])
    rw [repeatedNGramLoss, List.range_eq_range', h, Nat.zero_add]
    rfl
  · simp only [hasRepeatedTrigram, dupUpTo, List.any_eq_true, List.mem_range,
      decide_eq_true_eq]
    constructor
    · rintro ⟨j, hj, i, hij, hg⟩
      exact ⟨i, j, hij, by omega, hg⟩
    · rintro ⟨i, j, hij, hlen, hg⟩
      exact ⟨j, by omega, i, hij, hg⟩

/-- C9: `extend` returns a new `Hypothesis` whose `tokens`, `log_probs`,
`attn_dists` and `p_gens` are the parent's sequences with exactly one
element appended, and whose `state` and `coverage` are the supplied
values.  The source builds each sequence with Python list concatenation
`+`, which allocates a fresh list and never mutates the parent, so the
method is the pure function embedded here and the parent's fields are
identical by value before and after the call. -/
theorem extend_appends_one_and_replaces_state {σ : Type} (h : Hypothesis σ)
    (t : ℕ) (lp : ℚ) (st : σ) (a : List ℚ) (pg : ℚ) (cov : List ℚ) :
    (h.extend t lp st a pg cov).tokens = h.tokens ++ [t] ∧
    (h.extend t lp st a pg cov).log_probs = h.log_probs ++ [lp] ∧
    (h.extend t lp st a pg cov).attn_dists = h.attn_dists ++ [a] ∧
    (h.extend t lp st a pg cov).p_gens = h.p_gens ++ [pg] ∧
    (h.extend t lp st a pg cov).state = st ∧
    (h.extend t lp st a pg cov).coverage = cov :=
  ⟨rfl, rfl, rfl, rfl, rfl, rfl⟩

/-- C10: `make_html_safe` returns its argument unchanged for every input
string — the two `str.replace` results are discarded — so angled
brackets survive intact, as the concrete conjunct shows. -/
theorem make_html_safe_returns_input_unchanged :
    (∀ s : String, make_html_safe s = s) ∧
    make_html_safe ("a<b>") = ("a<b>") :=
  ⟨fun _ => rfl, rfl⟩

/-- C1 (code_bug evidence): `run_beam_search` returns `hyps_sorted[0]`
alone — a bare `Hypothesis`, not a `(hypothesis, score)` pair.  The
first conjunct evaluates a complete terminating search (beam size 1,
stop token 1 emitted at step 0) and exhibits the returned value as a
single `Hypothesis`; the second states the general return expression:
the head of the ranked results with no accompanying score.  The caller
`BeamSearchDecoder.decode` (`decode_eval.py:98-101`) nevertheless
unpacks `best_hyp, best_score` from this value (and passes eight
arguments to the four-parameter function), so every call through the
repository's own call site fails. -/
theorem run_beam_search_returns_bare_hypothesis :
    runBeamSearch (σ := Unit) ⟨1, 2, 0, 1, 2, false, [], [], [], id⟩
        (fun _ _ _ => ⟨[[1, 1]], [[0, 0]], [()], [[1]], [1], [[1]]⟩) 0 () 1 =
      ⟨[0, 1], [0, 0], (), [[1]], [1], [1]⟩ ∧
    ∀ (σ : Type) (inst : Inhabited σ) (cfg : Config)
      (decode : List ℕ → List σ → List (List ℚ) → DecodeResult σ)
      (startTok : ℕ) (d0 : σ) (attnLen : ℕ),
      runBeamSearch cfg decode startTok d0 attnLen =
        (sortHyps cfg (finalResults cfg decode startTok d0 attnLen)).headD default :=
  ⟨by
    simp [runBeamSearch, finalResults, beamLoop, beamStep, childHyps, initHyps,
      filterLoop, sortHyps, sortByKey, insertByKey, keyOf, avgLogProb,
      hasUnknownToken, Hypothesis.latestToken, Hypothesis.extend, pyGe,
      List.range_succ],
    fun _ _ _ _ _ _ _ => rfl⟩

/-- C2 (counterexample): on the degenerate hypothesis `⟨[0], [0], …⟩`
with `start_sent_ids = {0}` the weight vector sums to zero, and
`_smart_avg_log_prob` evaluates to numpy NaN (modelled `none`) — a value
silently returned and propagated into `score` — not an explicit
"degenerate scoring input" error surfaced to the caller as the claim
requires (the source has no error path at all at `beam_search.py:117`). -/
theorem degenerate_scoring_silently_yields_nan :
    smartAvgLogProb (σ := Unit) [0] [] [] ⟨[0], [0], (), [], [], []⟩ = none ∧
    score (σ := Unit) 0 9 [0] [] [] ⟨[0], [0], (), [], [], []⟩ = none :=
  ⟨by simp [smartAvgLogProb, smartPass, wStep, windowFold, wWrite, lpStep],
    by simp [score, hasUnknownToken, Hypothesis.latestToken, smartAvgLogProb,
      smartPass, wStep, windowFold, wWrite, lpStep, covLoss]⟩

/-- C2 (amended): for every hypothesis whose sentence-start weight vector
sums to zero, `_smart_avg_log_prob` silently evaluates to NaN (the numpy
`0/0` of the in-place normalization, modelled `none`) instead of raising
any error. -/
theorem zero_weight_sum_yields_nan {σ : Type} (h : Hypothesis σ)
    (ss sw pr : List ℕ)
    (hS : (smartPass ss sw pr h.tokens h.log_probs).1.sum = 0) :
    smartAvgLogProb ss sw pr h = none := by
  unfold smartAvgLogProb
  simp [hS]

/-- C2 (witness): the amended theorem applied to a concrete degenerate
hypothesis: all window positions are stopwords, so no weight is ever
set. -/
theorem zero_weight_sum_yields_nan_witness :
    (smartPass [0] [1] [] [0, 1] [1/2, 1/2]).1.sum = 0 ∧
    smartAvgLogProb (σ := Unit) [0] [1] [] ⟨[0, 1], [1/2, 1/2], (), [], [], []⟩ = none :=
  ⟨by simp [smartPass, wStep, windowFold, wWrite, lpStep, List.range_succ],
    zero_weight_sum_yields_nan ⟨[0, 1], [1/2, 1/2], (), [], [], []⟩ [0] [1] []
      (by simp [smartPass, wStep, windowFold, wWrite, lpStep, List.range_succ])⟩

/-- C3 (counterexample): a `Hypothesis` whose `tokens` (length 3) and
`log_probs` (length 1) violate the documented length relation is
constructed without complaint, and `avg_log_prob` happily computes
`sum(log_probs) / len(tokens) = -1/3` on it — the malformed value is not
rejected with any "malformed hypothesis" error. -/
theorem malformed_hypothesis_computes_a_result :
    (Hypothesis.mk [10, 11, 12] [-1] () [] [] []).tokens.length = 3 ∧
    (Hypothesis.mk [10, 11, 12] [-1] () [] [] []).log_probs.length = 1 ∧
    avgLogProb 5 99 (Hypothesis.mk [10, 11, 12] [-1] () [] [] []) = -(1/3) :=
  ⟨rfl, rfl, by
    simp [avgLogProb, hasUnknownToken, Hypothesis.latestToken]
    norm_num⟩

/-- C3 (amended): the constructor performs no validation — it stores the
six field values verbatim whatever their lengths — and `cov_loss` fails
(with a generic `IndexError` at `attn_dists[0]`, modelled `none`)
exactly on an empty `attn_dists`, computing a value in every other case
even for malformed hypotheses; no specific "malformed hypothesis" error
exists anywhere. -/
theorem constructor_stores_verbatim_and_cov_loss_fails_iff_empty :
    (∀ (σ : Type) (tokens : List ℕ) (lps : List ℚ) (st : σ)
       (ad : List (List ℚ)) (pg cov : List ℚ),
       (Hypothesis.mk tokens lps st ad pg cov).tokens = tokens ∧
       (Hypothesis.mk tokens lps st ad pg cov).log_probs = lps ∧
       (Hypothesis.mk tokens lps st ad pg cov).state = st ∧
       (Hypothesis.mk tokens lps st ad pg cov).attn_dists = ad ∧
       (Hypothesis.mk tokens lps st ad pg cov).p_gens = pg ∧
       (Hypothesis.mk tokens lps st ad pg cov).coverage = cov) ∧
    ∀ (σ : Type) (h : Hypothesis σ), covLoss h = none ↔ h.attn_dists = [] := by
  refine ⟨fun _ _ _ _ _ _ _ => ⟨rfl, rfl, rfl, rfl, rfl, rfl⟩, fun σ h => ?_⟩
  cases hA : h.attn_dists with
  | nil => simp [covLoss, hA]
  | cons a rest => simp [covLoss, hA]

lemma latestToken_extend {σ : Type} (h : Hypothesis σ) (t : ℕ) (lp : ℚ)
    (st : σ) (a : List ℚ) (pg : ℚ) (cov : List ℚ) :
    (h.extend t lp st a pg cov).latestToken = t := by
  unfold Hypothesis.latestToken Hypothesis.extend
  exact List.getLastD_concat 0 t h.tokens

lemma tokens_length_extend {σ : Type} (h : Hypothesis σ) (t : ℕ) (lp : ℚ)
    (st : σ) (a : List ℚ) (pg : ℚ) (cov : List ℚ) :
    (h.extend t lp st a pg cov).tokens.length = h.tokens.length + 1 := by
  unfold Hypothesis.extend
  simp [List.length_append]

lemma filterLoop_cons_live {σ : Type} (cfg : Config) (steps : ℕ)
    (h : Hypothesis σ) (rest acc res : List (Hypothesis σ))
    (hstop : ¬ h.latestToken = cfg.stopTokenId)
    (hfree : cfg.nFreeTokens ≤ h.latestToken) :
    filterLoop cfg steps (h :: rest) acc res =
      if (acc ++ [h]).length = cfg.beamSize ∨ res.length = 4 * cfg.beamSize
      then (acc ++ [h], res)
      else filterLoop cfg steps rest (acc ++ [h]) res := by
  simp only [filterLoop]
  rw [if_neg hstop, if_pos hfree]

/-- The filter/partition loop over candidates that are all live (latest
token neither stop nor reserved-unknown) appends candidates in order
until the beam is full: the new live set is the first `beam_size`
candidates and `results` is untouched. -/
lemma filterLoop_all_live {σ : Type} (cfg : Config) (steps : ℕ) :
    ∀ (l acc res : List (Hypothesis σ)),
      (∀ h ∈ l, ¬ h.latestToken = cfg.stopTokenId ∧
        cfg.nFreeTokens ≤ h.latestToken) →
      acc.length < cfg.beamSize → res.length < 4 * cfg.beamSize →
      filterLoop cfg steps l acc res =
        (acc ++ l.take (cfg.beamSize - acc.length), res) := by
  intro l
  induction l with
  | nil =>
    intro acc res hlive hacc hres
    simp [filterLoop]
  | cons h rest ih =>
    intro acc res hlive hacc hres
    obtain ⟨hstop, hfree⟩ := hlive h (List.mem_cons_self h rest)
    rw [filterLoop_cons_live cfg steps h rest acc res hstop hfree]
    by_cases hfull : (acc ++ [h]).length = cfg.beamSize
    · rw [if_pos (Or.inl hfull)]
      rw [List.length_append] at hfull
      rw [show cfg.beamSize - acc.length = 1 by simp at hfull; omega]
      rw [show (1 : ℕ) = 0 + 1 from rfl, List.take_succ_cons, List.take_zero]
    · rw [if_neg (by
        rintro (hc | hc)
        · exact hfull hc
        · omega)]
      rw [ih (acc ++ [h]) res (fun x hx => hlive x (List.mem_cons_of_mem h hx))
        (by rw [List.length_append] at hfull ⊢; simp at hfull ⊢; omega) hres]
      rw [show cfg.beamSize - acc.length =
        (cfg.beamSize - (acc ++ [h]).length) + 1 by
          rw [List.length_append]; simp at hfull ⊢; omega]
      rw [List.take_succ_cons, List.append_assoc]
      rfl

lemma mem_childHyps {σ : Type} [Inhabited σ] {cfg : Config}
    {r : DecodeResult σ} {numOrig : ℕ} {hyps : List (Hypothesis σ)}
    {x : Hypothesis σ} (hx : x ∈ childHyps cfg r numOrig hyps) :
    ∃ i < numOrig, ∃ j < 2 * cfg.beamSize,
      x = (hyps.getD i default).extend
        ((r.topk_ids.getD i []).getD j 0)
        ((r.topk_log_probs.getD i []).getD j 0)
        (r.new_states.getD i default)
        (r.attn_dists.getD i [])
        (r.p_gens.getD i 0)
        (r.new_coverage.getD i []) := by
  obtain ⟨i, hi, hx⟩ := List.mem_flatMap.1 hx
  obtain ⟨j, hj, hxj⟩ := List.mem_map.1 hx
  exact ⟨i, List.mem_range.1 hi, j, List.mem_range.1 hj, hxj.symm⟩

lemma childHyps_ne_nil {σ : Type} [Inhabited σ] {cfg : Config}
    {r : DecodeResult σ} {numOrig : ℕ} {hyps : List (Hypothesis σ)}
    (hn : 0 < numOrig) (hb : 0 < cfg.beamSize) :
    childHyps cfg r numOrig hyps ≠ [] := by
  refine List.ne_nil_of_mem (a := (hyps.getD 0 default).extend
    ((r.topk_ids.getD 0 []).getD 0 0)
    ((r.topk_log_probs.getD 0 []).getD 0 0)
    (r.new_states.getD 0 default)
    (r.attn_dists.getD 0 [])
    (r.p_gens.getD 0 0)
    (r.new_coverage.getD 0 [])) ?_
  refine List.mem_flatMap.2 ⟨0, List.mem_range.2 hn, ?_⟩
  exact List.mem_map.2 ⟨0, List.mem_range.2 (by omega), rfl⟩

/-- One step of the driver when every candidate token the decode
capability can supply (within the index ranges the driver reads) is
neither the stop token nor a reserved-unknown token: `results` is
untouched, the new live beam is nonempty, bounded by `beam_size`, and
every new live hypothesis is one token longer. -/
lemma beamStep_no_stop {σ : Type} [Inhabited σ] (cfg : Config)
    (decode : List ℕ → List σ → List (List ℚ) → DecodeResult σ)
    (hB : 1 ≤ cfg.beamSize)
    (hTok : ∀ (lt : List ℕ) (st : List σ) (cov : List (List ℚ)) (i j : ℕ),
      i < cfg.beamSize → j < 2 * cfg.beamSize →
      ¬ (((decode lt st cov).topk_ids.getD i []).getD j 0 = cfg.stopTokenId) ∧
        cfg.nFreeTokens ≤ ((decode lt st cov).topk_ids.getD i []).getD j 0)
    (steps : ℕ) (hyps : List (Hypothesis σ))
    (hne : hyps ≠ []) (hlen : hyps.length ≤ cfg.beamSize)
    (htoks : ∀ h ∈ hyps, h.tokens.length = steps + 1) :
    (beamStep cfg decode steps hyps []).2 = [] ∧
    (beamStep cfg decode steps hyps []).1 ≠ [] ∧
    (beamStep cfg decode steps hyps []).1.length ≤ cfg.beamSize ∧
    ∀ h ∈ (beamStep cfg decode steps hyps []).1,
      h.tokens.length = steps + 2 := by
  have hstep : beamStep cfg decode steps hyps [] =
      filterLoop cfg steps
        (sortHyps cfg (childHyps cfg
          (decode (hyps.map (fun h => cfg.remap h.latestToken))
            (hyps.map (fun h => h.state)) (hyps.map (fun h => h.coverage)))
          (if steps = 0 then 1 else hyps.length) hyps)) [] [] := rfl
  have hnum_pos : 0 < (if steps = 0 then 1 else hyps.length) := by
    by_cases hs : steps = 0
    · simp [hs]
    · simp [hs]
      exact List.length_pos.2 hne
  have hnum_le : (if steps = 0 then 1 else hyps.length) ≤ cfg.beamSize := by
    by_cases hs : steps = 0
    · simpa [hs] using hB
    · simpa [hs] using hlen
  have hnum_le' : (if steps = 0 then 1 else hyps.length) ≤ hyps.length := by
    by_cases hs : steps = 0
    · simpa [hs] using List.length_pos.2 hne
    · simp [hs]
  set r := decode (hyps.map (fun h => cfg.remap h.latestToken))
    (hyps.map (fun h => h.state)) (hyps.map (fun h => h.coverage)) with hr
  set numOrig := if steps = 0 then 1 else hyps.length with hnum
  set sorted := sortHyps cfg (childHyps cfg r numOrig hyps) with hsorted
  have hlive : ∀ x ∈ sorted, ¬ x.latestToken = cfg.stopTokenId ∧
      cfg.nFreeTokens ≤ x.latestToken := by
    intro x hx
    have hx' : x ∈ childHyps cfg r numOrig hyps :=
      (sortByKey_perm (keyOf cfg) _).mem_iff.1 hx
    obtain ⟨i, hi, j, hj, hxe⟩ := mem_childHyps hx'
    have := hTok (hyps.map (fun h => cfg.remap h.latestToken))
      (hyps.map (fun h => h.state)) (hyps.map (fun h => h.coverage)) i j
      (by omega) hj
    rw [hxe, latestToken_extend]
    exact this
  have hchild_len : ∀ x ∈ sorted, x.tokens.length = steps + 2 := by
    intro x hx
    have hx' : x ∈ childHyps cfg r numOrig hyps :=
      (sortByKey_perm (keyOf cfg) _).mem_iff.1 hx
    obtain ⟨i, hi, j, hj, hxe⟩ := mem_childHyps hx'
    have hparent : hyps.getD i default ∈ hyps := by
      have hil : i < hyps.length := by omega
      rw [List.getD_eq_getElem hyps default hil]
      exact List.getElem_mem hil
    rw [hxe, tokens_length_extend, htoks _ hparent]
  have hsorted_ne : sorted ≠ [] := by
    intro h0
    have hperm := sortByKey_perm (keyOf cfg) (childHyps cfg r numOrig hyps)
    rw [hsorted] at h0
    unfold sortHyps at h0
    rw [h0] at hperm
    exact @childHyps_ne_nil σ _ cfg r numOrig hyps hnum_pos (by omega)
      hperm.symm.eq_nil
  rw [hstep,
    filterLoop_all_live cfg steps sorted [] [] hlive (by simpa using hB)
      (by simp; omega)]
  refine ⟨rfl, ?_, ?_, ?_⟩
  · simp only [List.nil_append, List.length_nil, Nat.sub_zero]
    intro h0
    rcases List.take_eq_nil_iff.1 h0 with hc | hc
    · omega
    · exact hsorted_ne hc
  · simp only [List.nil_append, List.length_take, List.length_nil, Nat.sub_zero]
    omega
  · intro h hm
    simp only [List.nil_append] at hm
    exact hchild_len h (List.mem_of_mem_take hm)

/-- The driver loop, when no candidate the decode capability produces is
ever the stop token (and all are in-vocabulary): `results` stays empty
and after `fuel` further steps every live hypothesis has grown by `fuel`
tokens. -/
lemma beamLoop_no_stop {σ : Type} [Inhabited σ] (cfg : Config)
    (decode : List ℕ → List σ → List (List ℚ) → DecodeResult σ)
    (hB : 1 ≤ cfg.beamSize)
    (hTok : ∀ (lt : List ℕ) (st : List σ) (cov : List (List ℚ)) (i j : ℕ),
      i < cfg.beamSize → j < 2 * cfg.beamSize →
      ¬ (((decode lt st cov).topk_ids.getD i []).getD j 0 = cfg.stopTokenId) ∧
        cfg.nFreeTokens ≤ ((decode lt st cov).topk_ids.getD i []).getD j 0) :
    ∀ (fuel steps : ℕ) (hyps : List (Hypothesis σ)),
      hyps ≠ [] → hyps.length ≤ cfg.beamSize →
      (∀ h ∈ hyps, h.tokens.length = steps + 1) →
      (beamLoop cfg decode fuel steps hyps []).2 = [] ∧
      (beamLoop cfg decode fuel steps hyps []).1 ≠ [] ∧
      (beamLoop cfg decode fuel steps hyps []).1.length ≤ cfg.beamSize ∧
      ∀ h ∈ (beamLoop cfg decode fuel steps hyps []).1,
        h.tokens.length = steps + fuel + 1 := by
  intro fuel
  induction fuel with
  | zero =>
    intro steps hyps h1 h2 h3
    exact ⟨rfl, h1, h2, fun h hm => h3 h hm⟩
  | succ fuel ih =>
    intro steps hyps h1 h2 h3
    obtain ⟨hs2, hs1, hsl, hst⟩ := beamStep_no_stop cfg decode hB hTok steps hyps h1 h2 h3
    have hloop : beamLoop cfg decode (fuel + 1) steps hyps [] =
        beamLoop cfg decode fuel (steps + 1)
          (beamStep cfg decode steps hyps []).1
          (beamStep cfg decode steps hyps []).2 := by
      simp only [beamLoop]
      rw [if_pos (by simp; omega)]
    rw [hloop, hs2]
    obtain ⟨g2, g1, gl, gt⟩ := ih (steps + 1) _ hs1 hsl hst
    exact ⟨g2, g1, gl, fun h hm => (gt h hm).trans (by omega)⟩

/-- C8: when `decode_step` never produces the stop token (within the
index ranges the driver reads) during the whole run, nothing is ever
moved to `results`: the results set is empty at loop exit,
`run_beam_search` falls back to the current live hypotheses as results,
and the returned hypothesis has exactly `max_dec_steps + 1` tokens (the
start token plus one token per step).  The in-vocabulary half of `hTok`
keeps the live beam nonempty, which the claim's "returned hypothesis"
presupposes (an all-unknown decode would leave no hypotheses and crash
`hyps_sorted[0]`). -/
theorem beam_search_no_stop_fallback {σ : Type} [Inhabited σ] (cfg : Config)
    (decode : List ℕ → List σ → List (List ℚ) → DecodeResult σ)
    (startTok : ℕ) (d0 : σ) (attnLen : ℕ)
    (hB : 1 ≤ cfg.beamSize)
    (hTok : ∀ (lt : List ℕ) (st : List σ) (cov : List (List ℚ)) (i j : ℕ),
      i < cfg.beamSize → j < 2 * cfg.beamSize →
      ¬ (((decode lt st cov).topk_ids.getD i []).getD j 0 = cfg.stopTokenId) ∧
        cfg.nFreeTokens ≤ ((decode lt st cov).topk_ids.getD i []).getD j 0) :
    (beamLoop cfg decode cfg.maxDecSteps 0
      (initHyps cfg startTok d0 attnLen) []).2 = [] ∧
    finalResults cfg decode startTok d0 attnLen =
      (beamLoop cfg decode cfg.maxDecSteps 0
        (initHyps cfg startTok d0 attnLen) []).1 ∧
    (runBeamSearch cfg decode startTok d0 attnLen).tokens.length =
      cfg.maxDecSteps + 1 := by
  have hinit_ne : initHyps cfg startTok d0 attnLen ≠ [] := by
    unfold initHyps
    rw [ne_eq, List.replicate_eq_nil]
    omega
  have hinit_len : (initHyps cfg startTok d0 attnLen).length ≤ cfg.beamSize := by
    unfold initHyps
    rw [List.length_replicate]
  have hinit_tok : ∀ h ∈ initHyps cfg startTok d0 attnLen,
      h.tokens.length = 0 + 1 := by
    intro h hm
    rw [List.eq_of_mem_replicate hm]
    rfl
  obtain ⟨hr2, hr1, hrl, hrt⟩ := beamLoop_no_stop cfg decode hB hTok
    cfg.maxDecSteps 0 _ hinit_ne hinit_len hinit_tok
  have hfinal : finalResults cfg decode startTok d0 attnLen =
      (beamLoop cfg decode cfg.maxDecSteps 0
        (initHyps cfg startTok d0 attnLen) []).1 := by
    simp only [finalResults]
    rw [hr2]
    rfl
  refine ⟨hr2, hfinal, ?_⟩
  have hsne : sortHyps cfg (finalResults cfg decode startTok d0 attnLen) ≠ [] := by
    intro h0
    have hperm := sortByKey_perm (keyOf cfg)
      (finalResults cfg decode startTok d0 attnLen)
    unfold sortHyps at h0
    rw [h0] at hperm
    rw [hfinal] at hperm
    exact hr1 hperm.symm.eq_nil
  have hmem : (sortHyps cfg (finalResults cfg decode startTok d0 attnLen)).headD default ∈
      sortHyps cfg (finalResults cfg decode startTok d0 attnLen) := by
    cases hsort : sortHyps cfg (finalResults cfg decode startTok d0 attnLen) with
    | nil => exact absurd hsort hsne
    | cons a as => simp
  have hmem2 : (sortHyps cfg (finalResults cfg decode startTok d0 attnLen)).headD default ∈
      (beamLoop cfg decode cfg.maxDecSteps 0
        (initHyps cfg startTok d0 attnLen) []).1 := by
    rw [← hfinal]
    exact (sortByKey_perm (keyOf cfg) _).mem_iff.1 hmem
  have hfin := hrt _ hmem2
  unfold runBeamSearch
  rw [hfin]
  omega

/-- C8 (witness): the theorem applied to a concrete stub decode-step that
always proposes token `5` (never the stop token `1`, always above the
threshold `2`), with `beam_size = 1` and `max_dec_steps = 2`: the loop
exits with empty results, falls back to the live beam, and the returned
hypothesis has `2 + 1 = 3` tokens. -/
theorem beam_search_no_stop_fallback_witness :
    (1 ≤ (1 : ℕ)) ∧
    (∀ (lt : List ℕ) (st : List Unit) (cov : List (List ℚ)) (i j : ℕ),
      i < 1 → j < 2 * 1 →
      ¬ ((((fun (_ : List ℕ) (_ : List Unit) (_ : List (List ℚ)) =>
            (⟨[[5, 5]], [[0, 0]], [()], [[1]], [1], [[1]]⟩ : DecodeResult Unit))
          lt st cov).topk_ids.getD i []).getD j 0 = 1) ∧
        2 ≤ ((((fun (_ : List ℕ) (_ : List Unit) (_ : List (List ℚ)) =>
            (⟨[[5, 5]], [[0, 0]], [()], [[1]], [1], [[1]]⟩ : DecodeResult Unit))
          lt st cov).topk_ids.getD i []).getD j 0)) ∧
    ((beamLoop ⟨1, 2, 0, 1, 2, false, [], [], [], id⟩
        (fun _ _ _ => (⟨[[5, 5]], [[0, 0]], [()], [[1]], [1], [[1]]⟩ : DecodeResult Unit))
        2 0 (initHyps ⟨1, 2, 0, 1, 2, false, [], [], [], id⟩ 0 () 1) []).2 = [] ∧
      finalResults ⟨1, 2, 0, 1, 2, false, [], [], [], id⟩
        (fun _ _ _ => (⟨[[5, 5]], [[0, 0]], [()], [[1]], [1], [[1]]⟩ : DecodeResult Unit))
        0 () 1 =
        (beamLoop ⟨1, 2, 0, 1, 2, false, [], [], [], id⟩
          (fun _ _ _ => (⟨[[5, 5]], [[0, 0]], [()], [[1]], [1], [[1]]⟩ : DecodeResult Unit))
          2 0 (initHyps ⟨1, 2, 0, 1, 2, false, [], [], [], id⟩ 0 () 1) []).1 ∧
      (runBeamSearch ⟨1, 2, 0, 1, 2, false, [], [], [], id⟩
        (fun _ _ _ => (⟨[[5, 5]], [[0, 0]], [()], [[1]], [1], [[1]]⟩ : DecodeResult Unit))
        0 () 1).tokens.length = 2 + 1) := by
  refine ⟨by decide, ?_, ?_⟩
  · intro lt st cov i j hi hj
    have hi0 : i = 0 := by omega
    subst hi0
    interval_cases j
    · exact ⟨by simp, by simp⟩
    · exact ⟨by simp, by simp⟩
  · exact beam_search_no_stop_fallback ⟨1, 2, 0, 1, 2, false, [], [], [], id⟩
      (fun _ _ _ => (⟨[[5, 5]], [[0, 0]], [()], [[1]], [1], [[1]]⟩ : DecodeResult Unit))
      0 () 1 (by decide)
      (by
        intro lt st cov i j hi hj
        have hb : (⟨1, 2, 0, 1, 2, false, [], [], [], id⟩ : Config).beamSize = 1 := rfl
        rw [hb] at hi hj
        have hi0 : i = 0 := by omega
        subst hi0
        interval_cases j
        · exact ⟨by simp, by simp⟩
        · exact ⟨by simp, by simp⟩)

end BeamSearch
